import Mathlib

/-!
Verification of the JSON parser in `src/examples/json/parser.rs` (a winnow/nom
combinator parser). The parsers are embedded shallowly: input is a `List Char`,
a parser returns either a success with the remaining input and a value, or a
recoverable (backtrack) error, or a committed (cut/fatal) error. Errors carry
the list of context labels attached by the `context` combinator (the only
error information the claims observe; the Rust error type is generic).
-/

namespace WJ

abbrev Input := List Char

/-- Result of running a parser: success with remaining input and value,
recoverable failure (winnow `ErrMode::Backtrack`), or committed failure
(winnow `ErrMode::Cut`). Errors carry their accumulated context labels,
innermost first. -/
inductive PResult (α : Type) where
  | ok (rest : Input) (val : α)
  | backtrack (ctx : List String)
  | cut (ctx : List String)
deriving Repr, DecidableEq

abbrev Parser (α : Type) := Input → PResult α

/-- A single-character parser (winnow lets a `char` literal act as a parser). -/
def pchar (c : Char) : Parser Char := fun i =>
  match i with
  | [] => .backtrack []
  | c2 :: rest => if c2 = c then .ok rest c else .backtrack []

/-- `winnow::bytes::tag`: recognize a literal string. -/
def tag (s : List Char) : Parser (List Char) := fun i =>
  if s.isPrefixOf i then .ok (i.drop s.length) s else .backtrack []

/-- `winnow::bytes::take_while`: consume the maximal (possibly empty) prefix of
characters satisfying the predicate; never fails. -/
def take_while (p : Char → Bool) : Parser (List Char) := fun i =>
  .ok (i.dropWhile p) (i.takeWhile p)

/-- `Parser::map`. -/
def pmap (p : Parser α) (f : α → β) : Parser β := fun i =>
  match p i with
  | .ok r v => .ok r (f v)
  | .backtrack e => .backtrack e
  | .cut e => .cut e

/-- `winnow::combinator::cut`: turn a backtrack error into a committed error. -/
def cut (p : Parser α) : Parser α := fun i =>
  match p i with
  | .backtrack e => .cut e
  | r => r

/-- `Parser::context`: attach a context label to any error of the wrapped
parser (outer labels appended after inner ones). -/
def context (lbl : String) (p : Parser α) : Parser α := fun i =>
  match p i with
  | .ok r v => .ok r v
  | .backtrack e => .backtrack (e ++ [lbl])
  | .cut e => .cut (e ++ [lbl])

/-- Two-way `winnow::branch::alt`: try `p`; on a backtrack error try `q`
(keeping `q`'s error, as nom's default `ParseError::or` does); a cut error
stops the alternation. The source's 3- and 6-tuple `alt`s are right-nested
chains of this. -/
def alt2 (p q : Parser α) : Parser α := fun i =>
  match p i with
  | .backtrack _ => q i
  | r => r

/-- `winnow::combinator::opt`: catch a backtrack error (a cut error still
propagates). -/
def opt (p : Parser α) : Parser (Option α) := fun i =>
  match p i with
  | .ok r v => .ok r (some v)
  | .backtrack _ => .ok i none
  | .cut e => .cut e

/-- `winnow::sequence::preceded`. -/
def preceded (p : Parser α) (q : Parser β) : Parser β := fun i =>
  match p i with
  | .ok r _ => q r
  | .backtrack e => .backtrack e
  | .cut e => .cut e

/-- `winnow::sequence::terminated`. -/
def terminated (p : Parser α) (q : Parser β) : Parser α := fun i =>
  match p i with
  | .ok r1 a =>
    match q r1 with
    | .ok r2 _ => .ok r2 a
    | .backtrack e => .backtrack e
    | .cut e => .cut e
  | .backtrack e => .backtrack e
  | .cut e => .cut e

/-- `winnow::sequence::delimited`. -/
def delimited (p : Parser α) (q : Parser β) (r : Parser γ) : Parser β := fun i =>
  match p i with
  | .ok r1 _ =>
    match q r1 with
    | .ok r2 b =>
      match r r2 with
      | .ok r3 _ => .ok r3 b
      | .backtrack e => .backtrack e
      | .cut e => .cut e
    | .backtrack e => .backtrack e
    | .cut e => .cut e
  | .backtrack e => .backtrack e
  | .cut e => .cut e

/-- `winnow::sequence::separated_pair`. -/
def separated_pair (p : Parser α) (s : Parser γ) (q : Parser β) : Parser (α × β) := fun i =>
  match p i with
  | .ok r1 a =>
    match s r1 with
    | .ok r2 _ =>
      match q r2 with
      | .ok r3 b => .ok r3 (a, b)
      | .backtrack e => .backtrack e
      | .cut e => .cut e
    | .backtrack e => .backtrack e
    | .cut e => .cut e
  | .backtrack e => .backtrack e
  | .cut e => .cut e

/-- Loop of `separated_list0` after the first element, with fuel. Mirrors
nom/winnow: try the separator (backtrack ends the list at the input before
the separator); error if the separator consumed nothing (infinite-loop
guard); then try an element (backtrack ends the list before the separator);
cut errors propagate. Each continuing iteration strictly consumes input, so
fuel `i.length + 1` always suffices. -/
def sepLoop (sep : Parser α) (elem : Parser β) : Nat → Input → List β → PResult (List β)
  | 0, _, _ => .backtrack []
  | n+1, i, acc =>
    match sep i with
    | .backtrack _ => .ok i acc.reverse
    | .cut e => .cut e
    | .ok r1 _ =>
      if r1.length = i.length then .backtrack []
      else
        match elem r1 with
        | .backtrack _ => .ok i acc.reverse
        | .cut e => .cut e
        | .ok r2 v => sepLoop sep elem n r2 (v :: acc)

/-- `winnow::multi::separated_list0`. -/
def separated_list0 (sep : Parser α) (elem : Parser β) : Parser (List β) := fun i =>
  match elem i with
  | .backtrack _ => .ok i []
  | .cut e => .cut e
  | .ok r v => sepLoop sep elem (r.length + 1) r [v]

/-! ## The parsers of `src/examples/json/parser.rs` -/

/-- The whitespace set of `sp`: `chars = " \t\r\n"`. -/
def wsChar (c : Char) : Bool := c = ' ' || c = '\t' || c = '\r' || c = '\n'

/-- `sp`: `take_while(move |c| chars.contains(c))` with `chars = " \t\r\n"`. -/
def sp : Parser (List Char) := take_while wsChar

/-- Body of `winnow::bytes::escaped(alphanumeric1, backslash, one_of "quote n backslash")`
specialized as in `parse_str`, returning how many characters it consumes, or
`none` on its error cases. Mirrors the nom/winnow `escaped` loop: a maximal
alphanumeric run continues the scan (taken here one character at a time, which
is equivalent); a backslash must be followed by one of `"`, `n`, `\` (else the
escapable parser's error propagates), and a backslash at the end of input is an
error; any other character stops the scan, which is an error when nothing has
been consumed yet (`atStart`) and a success otherwise; exhausting the input is
a success. Rust's `char::is_alphanumeric` coincides with `Char.isAlphanum` on
the ASCII inputs the claims involve. -/
def escCount : Bool → Input → Option Nat
  | _, [] => some 0
  | atStart, c :: rest =>
    if c.isAlphanum then (escCount false rest).map (· + 1)
    else if c = '\\' then
      match rest with
      | [] => none
      | e :: rest2 =>
        if e = '"' ∨ e = 'n' ∨ e = '\\' then (escCount false rest2).map (· + 2)
        else none
    else if atStart then none else some 0

/-- `parse_str`: `escaped(alphanumeric, '\\', one_of("\"n\\"))`. -/
def parse_str : Parser (List Char) := fun i =>
  match escCount true i with
  | some n => .ok (i.drop n) (i.take n)
  | none => .backtrack []

/-- `string`: `preceded('\"', cut(terminated(parse_str, '\"'))).context("string")`. -/
def string : Parser (List Char) :=
  context "string" (preceded (pchar '"') (cut (terminated parse_str (pchar '"'))))

/-- `boolean`: `alt((tag("true").value(true), tag("false").value(false)))`. -/
def boolean : Parser Bool :=
  alt2 (pmap (tag ("true".toList)) (fun _ => true))
       (pmap (tag ("false".toList)) (fun _ => false))

/-- `null`: `tag("null").value(())`. -/
def null : Parser Unit := pmap (tag ("null".toList)) (fun _ => ())

/-- The JSON value tree (`JsonValue` in the source). `Num` holds the decoded
number as an exact rational (the source's `f64` is exact on the small decimal
literals the claims involve); `Object` holds the `HashMap` modelled as an
association list without duplicate keys, in first-insertion order. -/
inductive JsonValue where
  | Null
  | Str (s : String)
  | Boolean (b : Bool)
  | Num (q : ℚ)
  | Array (xs : List JsonValue)
  | Object (m : List (String × JsonValue))

/-- One `HashMap::insert` (Rust standard library, external to this repo):
if the key is present its value is overwritten, else the entry is added. -/
def hmInsert (m : List (String × JsonValue)) (k : String) (v : JsonValue) :
    List (String × JsonValue) :=
  match m with
  | [] => [(k, v)]
  | (k2, v2) :: rest => if k2 = k then (k2, v) :: rest else (k2, v2) :: hmInsert rest k v

/-- `collect::<HashMap<_,_>>()` over the key/value pairs in source order:
insert each pair in turn, later insertions overwriting earlier ones for an
identical key. -/
def hmCollect (l : List (String × JsonValue)) : List (String × JsonValue) :=
  l.foldl (fun m kv => hmInsert m kv.1 kv.2) []

/-- Digit run to the natural number it denotes. -/
def digitsToNat (ds : List Char) : Nat := ds.foldl (fun a c => a * 10 + (c.toNat - 48)) 0

/-- Optional fraction part: a dot followed by at least one digit (otherwise
not consumed). -/
def fracScan (i : Input) : Option (List Char × Input) :=
  match i with
  | c :: r =>
    if c = '.' then
      let ds := r.takeWhile Char.isDigit
      if ds.isEmpty then none else some (ds, r.drop ds.length)
    else none
  | [] => none

/-- Optional exponent part: `e`/`E`, optional sign, at least one digit
(otherwise not consumed). Returns whether the exponent is negative. -/
def expScan (i : Input) : Option (Bool × List Char × Input) :=
  match i with
  | c :: r =>
    if c = 'e' ∨ c = 'E' then
      let signRest : Bool × Input :=
        match r with
        | c2 :: r2 => if c2 = '+' then (false, r2) else if c2 = '-' then (true, r2) else (false, c2 :: r2)
        | [] => (false, [])
      let ds := signRest.2.takeWhile Char.isDigit
      if ds.isEmpty then none else some (signRest.1, ds, signRest.2.drop ds.length)
    else none
  | [] => none

/-- The exact rational value of a decimal literal with the given parts. -/
def mkNum (neg : Bool) (intDs fracDs : List Char) (eneg : Bool) (expDs : List Char) : ℚ :=
  let mant : ℚ := (digitsToNat intDs : ℚ) + (digitsToNat fracDs : ℚ) / (10 : ℚ) ^ fracDs.length
  let ex : ℚ :=
    if eneg then ((10 : ℚ) ^ digitsToNat expDs)⁻¹ else (10 : ℚ) ^ digitsToNat expDs
  (if neg then -mant else mant) * ex

/-- After the sign and integer part of a number: optional fraction, optional
exponent, then succeed with the decoded value. -/
def numTail (neg : Bool) (intDs : List Char) (i : Input) : PResult ℚ :=
  let fr : List Char × Input :=
    match fracScan i with
    | some (ds, r) => (ds, r)
    | none => ([], i)
  let ex : Bool × List Char × Input :=
    match expScan fr.2 with
    | some (s, ds, r) => (s, ds, r)
    | none => (false, [], fr.2)
  .ok ex.2.2 (mkNum neg intDs fr.1 ex.1 ex.2.1)

/-- Modelled from the spec: `winnow::character::f64`, the number scanner used
by the value dispatcher, is library code not present under `src/`. Per spec
§4.3 it accepts an optional minus sign, an integer part (a single `0`, or a
nonzero digit followed by digits), an optional fraction and an optional
exponent; it rejects a leading `+` and leading zeros beyond a single `0`, and
fails when no valid numeric prefix exists. The decoded value is represented
here as an exact rational. `f64core` handles the part after the optional
minus sign: a single `0`, or a nonzero-led digit run, then `numTail`. -/
def f64core (neg : Bool) : Parser ℚ := fun j =>
  match j with
  | [] => .backtrack []
  | c :: r =>
    if c = '0' then numTail neg ['0'] r
    else if c.isDigit then
      numTail neg ((c :: r).takeWhile Char.isDigit) ((c :: r).dropWhile Char.isDigit)
    else .backtrack []

def f64 : Parser ℚ := fun i =>
  match i with
  | [] => .backtrack []
  | c :: r => if c = '-' then f64core true r else f64core false (c :: r)

/-- `key_value`: `separated_pair(preceded(sp, string), cut(preceded(sp, ':')), json_value)`,
parameterized by the value parser (the source's mutual recursion is closed
below with fuel). -/
def key_value (vp : Parser JsonValue) : Parser (List Char × JsonValue) :=
  separated_pair (preceded sp string) (cut (preceded sp (pchar ':'))) vp

/-- `hash`: `preceded('{', cut(terminated(separated_list0(preceded(sp, ','), key_value)
.map(collect), preceded(sp, '}')))).context("map")`. -/
def hash (vp : Parser JsonValue) : Parser (List (String × JsonValue)) :=
  context "map"
    (preceded (pchar '{')
      (cut (terminated
        (pmap (separated_list0 (preceded sp (pchar ',')) (key_value vp))
          (fun tv => hmCollect (tv.map (fun kv => (String.mk kv.1, kv.2)))))
        (preceded sp (pchar '}')))))

/-- `array`: `preceded('[', cut(terminated(separated_list0(preceded(sp, ','), json_value),
preceded(sp, ']')))).context("array")`. -/
def array (vp : Parser JsonValue) : Parser (List JsonValue) :=
  context "array"
    (preceded (pchar '[')
      (cut (terminated (separated_list0 (preceded sp (pchar ',')) vp)
        (preceded sp (pchar ']')))))

/-- `json_value`: `preceded(sp, alt((hash.map(Object), array.map(Array),
string.map(Str), f64.map(Num), boolean.map(Boolean), null.map(Null))))`.
The source's mutual recursion through `hash`/`array`/`key_value` is expressed
with a fuel parameter; the top-level entry supplies ample fuel. -/
def json_value : Nat → Parser JsonValue
  | 0 => fun _ => .backtrack []
  | n + 1 =>
    preceded sp
      (alt2 (pmap (hash (json_value n)) JsonValue.Object)
      (alt2 (pmap (array (json_value n)) JsonValue.Array)
      (alt2 (pmap string (fun s => JsonValue.Str (String.mk s)))
      (alt2 (pmap f64 JsonValue.Num)
      (alt2 (pmap boolean JsonValue.Boolean)
            (pmap null (fun _ => JsonValue.Null)))))))

/-- `root`: `delimited(sp, alt((hash.map(Object), array.map(Array),
null.map(Null))), opt(sp))`, with fuel for the nested values. -/
def root (n : Nat) : Parser JsonValue :=
  delimited sp
    (alt2 (pmap (hash (json_value n)) JsonValue.Object)
    (alt2 (pmap (array (json_value n)) JsonValue.Array)
          (pmap null (fun _ => JsonValue.Null))))
    (opt sp)

/-- Outcome of the public entry point: either the value, or a distinguished
trailing-input error, or the parser's own error (with its fatal flag and
context labels). -/
inductive ParseFail where
  | TrailingInput (rest : Input)
  | Failed (fatal : Bool) (ctx : List String)
deriving Repr, DecidableEq

/-- Modelled from the spec: the public entry point `parse` (the example's
`main.rs` / winnow's consume-all `Parser::parse`) is not present under `src/`.
Per spec §4.9/§6 it runs `root` and then requires the input to be fully
consumed, failing with `TrailingInput` when characters remain. Fuel
`length + 1` is ample since every recursion step consumes input. -/
def parse (s : String) : Except ParseFail JsonValue :=
  match root (s.toList.length + 1) s.toList with
  | .ok [] v => .ok v
  | .ok rest _ => .error (.TrailingInput rest)
  | .backtrack e => .error (.Failed false e)
  | .cut e => .error (.Failed true e)

/-! ## Helper lemmas -/

/-- A parser only consumes a front part of its input: on success the
remaining input is a suffix of the given input. -/
def Suffixing (p : Parser α) : Prop :=
  ∀ i rest v, p i = .ok rest v → rest <:+ i

theorem suffixing_pchar (c : Char) : Suffixing (pchar c) := by
  intro i rest v h
  cases i with
  | nil => simp [pchar] at h
  | cons c2 t =>
    simp only [pchar] at h
    split at h
    · cases h; exact List.suffix_cons _ _
    · cases h

theorem suffixing_tag (s : List Char) : Suffixing (tag s) := by
  intro i rest v h
  simp only [tag] at h
  split at h
  · cases h; exact List.drop_suffix _ _
  · cases h

theorem dropWhile_suffix (p : Char → Bool) (i : Input) : i.dropWhile p <:+ i := by
  induction i with
  | nil => exact List.suffix_refl _
  | cons c t ih =>
    by_cases hc : p c
    · simpa [List.dropWhile, hc] using ih.trans (List.suffix_cons c t)
    · simp [List.dropWhile, hc]

theorem suffixing_take_while (p : Char → Bool) : Suffixing (take_while p) := by
  intro i rest v h
  cases h
  exact dropWhile_suffix p i

theorem suffixing_pmap (p : Parser α) (f : α → β) (hp : Suffixing p) :
    Suffixing (pmap p f) := by
  intro i rest v h
  unfold pmap at h
  cases hpi : p i with
  | ok r a =>
    simp only [hpi] at h
    obtain ⟨rfl, rfl⟩ := h
    exact hp i _ _ hpi
  | backtrack e => simp [hpi] at h
  | cut e => simp [hpi] at h

theorem suffixing_cut (p : Parser α) (hp : Suffixing p) : Suffixing (cut p) := by
  intro i rest v h
  unfold cut at h
  cases hpi : p i with
  | ok r a =>
    simp only [hpi] at h
    obtain ⟨rfl, rfl⟩ := h
    exact hp i _ _ hpi
  | backtrack e => simp [hpi] at h
  | cut e => simp [hpi] at h

theorem suffixing_context (lbl : String) (p : Parser α) (hp : Suffixing p) :
    Suffixing (context lbl p) := by
  intro i rest v h
  unfold context at h
  cases hpi : p i with
  | ok r a =>
    simp only [hpi] at h
    obtain ⟨rfl, rfl⟩ := h
    exact hp i _ _ hpi
  | backtrack e => simp [hpi] at h
  | cut e => simp [hpi] at h

theorem suffixing_alt2 (p q : Parser α) (hp : Suffixing p) (hq : Suffixing q) :
    Suffixing (alt2 p q) := by
  intro i rest v h
  unfold alt2 at h
  cases hpi : p i with
  | ok r a =>
    simp only [hpi] at h
    obtain ⟨rfl, rfl⟩ := h
    exact hp i _ _ hpi
  | backtrack e =>
    simp only [hpi] at h
    exact hq i _ _ h
  | cut e => simp [hpi] at h

theorem suffixing_opt (p : Parser α) (hp : Suffixing p) : Suffixing (opt p) := by
  intro i rest v h
  unfold opt at h
  cases hpi : p i with
  | ok r a =>
    simp only [hpi] at h
    obtain ⟨rfl, rfl⟩ := h
    exact hp i _ _ hpi
  | backtrack e =>
    simp only [hpi] at h
    obtain ⟨rfl, rfl⟩ := h
    exact List.suffix_refl _
  | cut e => simp [hpi] at h

theorem suffixing_preceded (p : Parser α) (q : Parser β)
    (hp : Suffixing p) (hq : Suffixing q) : Suffixing (preceded p q) := by
  intro i rest v h
  unfold preceded at h
  cases hpi : p i with
  | ok r a =>
    simp only [hpi] at h
    exact (hq _ _ _ h).trans (hp i _ _ hpi)
  | backtrack e => simp [hpi] at h
  | cut e => simp [hpi] at h

theorem suffixing_terminated (p : Parser α) (q : Parser β)
    (hp : Suffixing p) (hq : Suffixing q) : Suffixing (terminated p q) := by
  intro i rest v h
  unfold terminated at h
  cases hpi : p i with
  | ok r1 a =>
    simp only [hpi] at h
    cases hqi : q r1 with
    | ok r2 b =>
      simp only [hqi] at h
      obtain ⟨rfl, rfl⟩ := h
      exact (hq _ _ _ hqi).trans (hp i _ _ hpi)
    | backtrack e => simp [hqi] at h
    | cut e => simp [hqi] at h
  | backtrack e => simp [hpi] at h
  | cut e => simp [hpi] at h

theorem suffixing_delimited (p : Parser α) (q : Parser β) (r : Parser γ)
    (hp : Suffixing p) (hq : Suffixing q) (hr : Suffixing r) :
    Suffixing (delimited p q r) := by
  intro i rest v h
  unfold delimited at h
  cases hpi : p i with
  | ok r1 a =>
    simp only [hpi] at h
    cases hqi : q r1 with
    | ok r2 b =>
      simp only [hqi] at h
      cases hri : r r2 with
      | ok r3 cc =>
        simp only [hri] at h
        obtain ⟨rfl, rfl⟩ := h
        exact ((hr _ _ _ hri).trans (hq _ _ _ hqi)).trans (hp i _ _ hpi)
      | backtrack e => simp [hri] at h
      | cut e => simp [hri] at h
    | backtrack e => simp [hqi] at h
    | cut e => simp [hqi] at h
  | backtrack e => simp [hpi] at h
  | cut e => simp [hpi] at h

theorem suffixing_separated_pair (p : Parser α) (s : Parser γ) (q : Parser β)
    (hp : Suffixing p) (hs : Suffixing s) (hq : Suffixing q) :
    Suffixing (separated_pair p s q) := by
  intro i rest v h
  unfold separated_pair at h
  cases hpi : p i with
  | ok r1 a =>
    simp only [hpi] at h
    cases hsi : s r1 with
    | ok r2 b =>
      simp only [hsi] at h
      cases hqi : q r2 with
      | ok r3 cc =>
        simp only [hqi] at h
        obtain ⟨rfl, rfl⟩ := h
        exact ((hq _ _ _ hqi).trans (hs _ _ _ hsi)).trans (hp i _ _ hpi)
      | backtrack e => simp [hqi] at h
      | cut e => simp [hqi] at h
    | backtrack e => simp [hsi] at h
    | cut e => simp [hsi] at h
  | backtrack e => simp [hpi] at h
  | cut e => simp [hpi] at h

theorem suffixing_sepLoop (sep : Parser α) (elem : Parser β)
    (hs : Suffixing sep) (he : Suffixing elem) :
    ∀ (n : Nat) (i : Input) (acc : List β) (rest : Input) (v : List β),
      sepLoop sep elem n i acc = .ok rest v → rest <:+ i := by
  intro n
  induction n with
  | zero => intro i acc rest v h; cases h
  | succ m ih =>
    intro i acc rest v h
    unfold sepLoop at h
    cases hsi : sep i with
    | ok r1 a =>
      simp only [hsi] at h
      split at h
      · cases h
      · cases hei : elem r1 with
        | ok r2 b =>
          simp only [hei] at h
          exact ((ih r2 _ _ _ h).trans (he _ _ _ hei)).trans (hs i _ _ hsi)
        | backtrack e =>
          simp only [hei] at h
          obtain ⟨rfl, rfl⟩ := h
          exact List.suffix_refl _
        | cut e => simp [hei] at h
    | backtrack e =>
      simp only [hsi] at h
      obtain ⟨rfl, rfl⟩ := h
      exact List.suffix_refl _
    | cut e => simp [hsi] at h

theorem suffixing_separated_list0 (sep : Parser α) (elem : Parser β)
    (hs : Suffixing sep) (he : Suffixing elem) :
    Suffixing (separated_list0 sep elem) := by
  intro i rest v h
  unfold separated_list0 at h
  cases hei : elem i with
  | ok r a =>
    simp only [hei] at h
    exact (suffixing_sepLoop sep elem hs he _ _ _ _ _ h).trans (he i _ _ hei)
  | backtrack e =>
    simp only [hei] at h
    obtain ⟨rfl, rfl⟩ := h
    exact List.suffix_refl _
  | cut e => simp [hei] at h

theorem suffixing_parse_str : Suffixing parse_str := by
  intro i rest v h
  unfold parse_str at h
  cases hn : escCount true i with
  | some n =>
    simp only [hn] at h
    obtain ⟨rfl, rfl⟩ := h
    exact List.drop_suffix _ _
  | none => simp [hn] at h

theorem suffixing_sp : Suffixing sp := suffixing_take_while wsChar

theorem suffixing_string : Suffixing string :=
  suffixing_context _ _ (suffixing_preceded _ _ (suffixing_pchar _)
    (suffixing_cut _ (suffixing_terminated _ _ suffixing_parse_str (suffixing_pchar _))))

theorem suffixing_boolean : Suffixing boolean :=
  suffixing_alt2 _ _ (suffixing_pmap _ _ (suffixing_tag _)) (suffixing_pmap _ _ (suffixing_tag _))

theorem suffixing_null : Suffixing null := suffixing_pmap _ _ (suffixing_tag _)

theorem fracScan_suffix (i : Input) (ds : List Char) (r : Input)
    (h : fracScan i = some (ds, r)) : r <:+ i := by
  cases i with
  | nil => simp [fracScan] at h
  | cons c t =>
    simp only [fracScan] at h
    split at h
    · split at h
      · cases h
      · cases h
        exact (List.drop_suffix _ _).trans (List.suffix_cons c t)
    · cases h

theorem expScan_suffix (i : Input) (b : Bool) (ds : List Char) (r : Input)
    (h : expScan i = some (b, ds, r)) : r <:+ i := by
  cases i with
  | nil => simp [expScan] at h
  | cons c t =>
    simp only [expScan] at h
    split at h
    · cases t with
      | nil =>
        simp only at h
        split at h
        · cases h
        · cases h
          simp
      | cons c2 t2 =>
        simp only at h
        split at h
        · split at h
          · cases h
          · cases h
            exact ((List.drop_suffix _ _).trans (List.suffix_cons c2 t2)).trans
              (List.suffix_cons c (c2 :: t2))
        · split at h
          · split at h
            · cases h
            · cases h
              exact ((List.drop_suffix _ _).trans (List.suffix_cons c2 t2)).trans
                (List.suffix_cons c (c2 :: t2))
          · split at h
            · cases h
            · cases h
              exact (List.drop_suffix _ _).trans (List.suffix_cons c (c2 :: t2))
    · cases h

theorem numTail_suffix (neg : Bool) (intDs : List Char) (i rest : Input) (q : ℚ)
    (h : numTail neg intDs i = .ok rest q) : rest <:+ i := by
  unfold numTail at h
  cases hf : fracScan i with
  | none =>
    simp only [hf] at h
    cases he : expScan i with
    | none =>
      simp only [he] at h
      obtain ⟨rfl, rfl⟩ := h
      exact List.suffix_refl _
    | some v2 =>
      obtain ⟨b, ds, r⟩ := v2
      simp only [he] at h
      obtain ⟨rfl, rfl⟩ := h
      exact expScan_suffix i b ds _ he
  | some v1 =>
    obtain ⟨ds0, r0⟩ := v1
    simp only [hf] at h
    cases he : expScan r0 with
    | none =>
      simp only [he] at h
      obtain ⟨rfl, rfl⟩ := h
      exact fracScan_suffix i ds0 _ hf
    | some v2 =>
      obtain ⟨b, ds, r⟩ := v2
      simp only [he] at h
      obtain ⟨rfl, rfl⟩ := h
      exact (expScan_suffix r0 b ds _ he).trans (fracScan_suffix i ds0 r0 hf)

theorem suffixing_f64core (neg : Bool) : Suffixing (f64core neg) := by
  intro j rest v h
  cases j with
  | nil => simp [f64core] at h
  | cons c r =>
    simp only [f64core] at h
    split at h
    · exact (numTail_suffix _ _ _ _ _ h).trans (List.suffix_cons _ _)
    · split at h
      · exact (numTail_suffix _ _ _ _ _ h).trans (dropWhile_suffix _ _)
      · cases h

theorem suffixing_f64 : Suffixing f64 := by
  intro i rest v h
  cases i with
  | nil => simp [f64] at h
  | cons c t =>
    simp only [f64] at h
    split at h
    · exact (suffixing_f64core _ _ _ _ h).trans (List.suffix_cons _ _)
    · exact suffixing_f64core _ _ _ _ h

theorem suffixing_key_value (vp : Parser JsonValue) (hv : Suffixing vp) :
    Suffixing (key_value vp) :=
  suffixing_separated_pair _ _ _
    (suffixing_preceded _ _ suffixing_sp suffixing_string)
    (suffixing_cut _ (suffixing_preceded _ _ suffixing_sp (suffixing_pchar _)))
    hv

theorem suffixing_hash (vp : Parser JsonValue) (hv : Suffixing vp) :
    Suffixing (hash vp) :=
  suffixing_context _ _ (suffixing_preceded _ _ (suffixing_pchar _)
    (suffixing_cut _ (suffixing_terminated _ _
      (suffixing_pmap _ _ (suffixing_separated_list0 _ _
        (suffixing_preceded _ _ suffixing_sp (suffixing_pchar _))
        (suffixing_key_value vp hv)))
      (suffixing_preceded _ _ suffixing_sp (suffixing_pchar _)))))

theorem suffixing_array (vp : Parser JsonValue) (hv : Suffixing vp) :
    Suffixing (array vp) :=
  suffixing_context _ _ (suffixing_preceded _ _ (suffixing_pchar _)
    (suffixing_cut _ (suffixing_terminated _ _
      (suffixing_separated_list0 _ _
        (suffixing_preceded _ _ suffixing_sp (suffixing_pchar _)) hv)
      (suffixing_preceded _ _ suffixing_sp (suffixing_pchar _)))))

theorem suffixing_json_value (n : Nat) : Suffixing (json_value n) := by
  induction n with
  | zero => intro i rest v h; cases h
  | succ m ih =>
    show Suffixing (json_value (m + 1))
    rw [json_value]
    exact suffixing_preceded _ _ suffixing_sp
      (suffixing_alt2 _ _ (suffixing_pmap _ _ (suffixing_hash _ ih))
      (suffixing_alt2 _ _ (suffixing_pmap _ _ (suffixing_array _ ih))
      (suffixing_alt2 _ _ (suffixing_pmap _ _ suffixing_string)
      (suffixing_alt2 _ _ (suffixing_pmap _ _ suffixing_f64)
      (suffixing_alt2 _ _ (suffixing_pmap _ _ suffixing_boolean)
        (suffixing_pmap _ _ suffixing_null))))))

theorem suffixing_root (n : Nat) : Suffixing (root n) :=
  suffixing_delimited _ _ _ suffixing_sp
    (suffixing_alt2 _ _ (suffixing_pmap _ _ (suffixing_hash _ (suffixing_json_value n)))
    (suffixing_alt2 _ _ (suffixing_pmap _ _ (suffixing_array _ (suffixing_json_value n)))
      (suffixing_pmap _ _ suffixing_null)))
    (suffixing_opt _ suffixing_sp)

theorem preceded_sp (p : Parser α) (i : Input) :
    preceded sp p i = p (i.dropWhile wsChar) := rfl

theorem opt_sp_ok (r : Input) :
    opt sp r = .ok (r.dropWhile wsChar) (some (r.takeWhile wsChar)) := rfl

theorem alt2_ok (p q : Parser α) (i rest : Input) (v : α)
    (h : alt2 p q i = .ok rest v) :
    p i = .ok rest v ∨ ((∃ e, p i = .backtrack e) ∧ q i = .ok rest v) := by
  unfold alt2 at h
  cases hpi : p i with
  | ok r a => simp only [hpi] at h; obtain ⟨rfl, rfl⟩ := h; exact Or.inl rfl
  | backtrack e => simp only [hpi] at h; exact Or.inr ⟨⟨e, rfl⟩, h⟩
  | cut e => simp [hpi] at h

theorem pmap_ok (p : Parser α) (f : α → β) (i rest : Input) (v : β)
    (h : pmap p f i = .ok rest v) :
    ∃ a, p i = .ok rest a ∧ v = f a := by
  unfold pmap at h
  cases hpi : p i with
  | ok r a =>
    simp only [hpi] at h
    obtain ⟨rfl, rfl⟩ := h
    exact ⟨a, rfl, rfl⟩
  | backtrack e => simp [hpi] at h
  | cut e => simp [hpi] at h

theorem context_ok (lbl : String) (p : Parser α) (i rest : Input) (v : α)
    (h : context lbl p i = .ok rest v) : p i = .ok rest v := by
  unfold context at h
  cases hpi : p i with
  | ok r a => simp only [hpi] at h; obtain ⟨rfl, rfl⟩ := h; exact rfl
  | backtrack e => simp [hpi] at h
  | cut e => simp [hpi] at h

theorem cut_ok (p : Parser α) (i rest : Input) (v : α)
    (h : cut p i = .ok rest v) : p i = .ok rest v := by
  unfold cut at h
  cases hpi : p i with
  | ok r a => simp only [hpi] at h; obtain ⟨rfl, rfl⟩ := h; exact rfl
  | backtrack e => simp [hpi] at h
  | cut e => simp [hpi] at h

theorem preceded_ok (p : Parser α) (q : Parser β) (i rest : Input) (v : β)
    (h : preceded p q i = .ok rest v) :
    ∃ r1 a, p i = .ok r1 a ∧ q r1 = .ok rest v := by
  unfold preceded at h
  cases hpi : p i with
  | ok r a => simp only [hpi] at h; exact ⟨r, a, rfl, h⟩
  | backtrack e => simp [hpi] at h
  | cut e => simp [hpi] at h

theorem terminated_ok (p : Parser α) (q : Parser β) (i rest : Input) (v : α)
    (h : terminated p q i = .ok rest v) :
    ∃ r1 b, p i = .ok r1 v ∧ q r1 = .ok rest b := by
  unfold terminated at h
  cases hpi : p i with
  | ok r1 a =>
    simp only [hpi] at h
    cases hqi : q r1 with
    | ok r2 b =>
      simp only [hqi] at h
      obtain ⟨rfl, rfl⟩ := h
      exact ⟨r1, b, rfl, hqi⟩
    | backtrack e => simp [hqi] at h
    | cut e => simp [hqi] at h
  | backtrack e => simp [hpi] at h
  | cut e => simp [hpi] at h

theorem pchar_ok (c : Char) (i rest : Input) (v : Char)
    (h : pchar c i = .ok rest v) : i = c :: rest ∧ v = c := by
  cases i with
  | nil => simp [pchar] at h
  | cons c2 t =>
    simp only [pchar] at h
    split at h
    · cases h
      subst c2
      exact ⟨rfl, rfl⟩
    · cases h

theorem parse_str_ok (i rest body : Input)
    (h : parse_str i = .ok rest body) :
    ∃ nn, escCount true i = some nn ∧ body = i.take nn ∧ rest = i.drop nn := by
  unfold parse_str at h
  cases hn : escCount true i with
  | some nn =>
    simp only [hn] at h
    obtain ⟨rfl, rfl⟩ := h
    exact ⟨nn, rfl, rfl, rfl⟩
  | none => simp [hn] at h

theorem string_ok (i rest : Input) (s : List Char)
    (h : string i = .ok rest s) : i = '"' :: (s ++ '"' :: rest) := by
  have h1 := context_ok _ _ _ _ _ h
  obtain ⟨r1, a, hq, h2⟩ := preceded_ok _ _ _ _ _ h1
  obtain ⟨hi, -⟩ := pchar_ok _ _ _ _ hq
  have h3 := cut_ok _ _ _ _ h2
  obtain ⟨r2, b, hps, hq2⟩ := terminated_ok _ _ _ _ _ h3
  obtain ⟨hr2, -⟩ := pchar_ok _ _ _ _ hq2
  obtain ⟨nn, -, hbody, hrest⟩ := parse_str_ok _ _ _ hps
  subst hi hbody hrest
  rw [← hr2]
  rw [List.take_append_drop]

theorem escCount_spec (n : Nat) (b : Bool) (i : Input) (h : escCount b i = some n) :
    (∀ c ∈ i.take n, c.isAlphanum ∨ c = '\\' ∨ c = '"' ∨ c = 'n') ∧
    (i.drop n = [] ∨ ∃ c t, i.drop n = c :: t ∧ ¬c.isAlphanum ∧ c ≠ '\\') := by
  induction n using Nat.strong_induction_on generalizing b i with
  | _ n ih =>
    cases i with
    | nil =>
      unfold escCount at h
      cases h
      exact ⟨fun c hc => absurd hc (List.not_mem_nil c), Or.inl rfl⟩
    | cons c rest =>
      unfold escCount at h
      by_cases halnum : c.isAlphanum
      · rw [if_pos halnum] at h
        obtain ⟨m, hm, hn⟩ := Option.map_eq_some'.mp h
        subst hn
        obtain ⟨ih1, ih2⟩ := ih m (by omega) false rest hm
        refine ⟨?_, ?_⟩
        · intro c2 hc2
          rw [List.take_succ_cons] at hc2
          cases hc2 with
          | head => exact Or.inl halnum
          | tail _ hmem => exact ih1 c2 hmem
        · simpa [List.drop_succ_cons] using ih2
      · rw [if_neg halnum] at h
        by_cases hback : c = '\\'
        · rw [if_pos hback] at h
          split at h
          · cases h
          · rename_i e rest2
            by_cases hesc : e = '"' ∨ e = 'n' ∨ e = '\\'
            · rw [if_pos hesc] at h
              obtain ⟨m, hm, hn⟩ := Option.map_eq_some'.mp h
              subst hn
              obtain ⟨ih1, ih2⟩ := ih m (by omega) false rest2 hm
              refine ⟨?_, ?_⟩
              · intro c2 hc2
                have h2 : m + 2 = (m + 1) + 1 := rfl
                rw [h2, List.take_succ_cons, List.take_succ_cons] at hc2
                cases hc2 with
                | head => right; left; exact hback
                | tail _ hmem =>
                  cases hmem with
                  | head =>
                    rcases hesc with h1 | h1 | h1
                    · right; right; left; exact h1
                    · right; right; right; exact h1
                    · right; left; exact h1
                  | tail _ hmem2 => exact ih1 c2 hmem2
              · have h2 : m + 2 = (m + 1) + 1 := rfl
                rw [h2]
                simpa [List.drop_succ_cons] using ih2
            · rw [if_neg hesc] at h
              cases h
        · rw [if_neg hback] at h
          by_cases hstart : b = true
          · rw [if_pos hstart] at h
            cases h
          · rw [if_neg hstart] at h
            cases h
            refine ⟨fun c2 hc2 => absurd hc2 (by simp), Or.inr ⟨c, rest, rfl, ?_, hback⟩⟩
            simpa using halnum

theorem delimited_ok (p : Parser α) (q : Parser β) (r : Parser γ) (i rest : Input) (v : β)
    (h : delimited p q r i = .ok rest v) :
    ∃ r1 a r2 c, p i = .ok r1 a ∧ q r1 = .ok r2 v ∧ r r2 = .ok rest c := by
  unfold delimited at h
  cases hpi : p i with
  | ok r1 a =>
    simp only [hpi] at h
    cases hqi : q r1 with
    | ok r2 b =>
      simp only [hqi] at h
      cases hri : r r2 with
      | ok r3 cc =>
        simp only [hri] at h
        obtain ⟨rfl, rfl⟩ := h
        exact ⟨r1, a, r2, cc, rfl, hqi, hri⟩
      | backtrack e => simp [hri] at h
      | cut e => simp [hri] at h
    | backtrack e => simp [hqi] at h
    | cut e => simp [hqi] at h
  | backtrack e => simp [hpi] at h
  | cut e => simp [hpi] at h

/-! ## The claims -/

/-- Claim C1: the public entry point succeeds only when the whole input is
consumed: whenever `root` succeeds leaving a nonempty remainder, `parse`
fails with `TrailingInput`; whenever `parse` succeeds the remainder was
empty; and concretely `parse "  { } extra"` fails with `TrailingInput`
carrying `"extra"` after the top-level `{}` parsed successfully. -/
theorem parse_requires_full_input :
    (∀ (s : String) (rest : Input) (v : JsonValue),
       root (s.toList.length + 1) s.toList = .ok rest v → rest ≠ [] →
       parse s = .error (.TrailingInput rest))
    ∧ (∀ (s : String) (v : JsonValue), parse s = .ok v →
       root (s.toList.length + 1) s.toList = .ok [] v)
    ∧ parse (String.mk [' ', ' ', '{', ' ', '}', ' ', 'e', 'x', 't', 'r', 'a'])
        = .error (.TrailingInput ['e', 'x', 't', 'r', 'a']) := by
  refine ⟨?_, ?_, rfl⟩
  · intro s rest v h hne
    unfold parse
    rw [h]
    cases rest with
    | nil => exact absurd rfl hne
    | cons c t => rfl
  · intro s v h
    unfold parse at h
    cases hr : root (s.toList.length + 1) s.toList with
    | ok r v0 =>
      rw [hr] at h
      cases r with
      | nil => cases h; exact rfl
      | cons c t => cases h
    | backtrack e => rw [hr] at h; cases h
    | cut e => rw [hr] at h; cases h

theorem parse_requires_full_input_witness :
    parse (String.mk [' ', ' ', '{', ' ', '}', ' ', 'e', 'x', 't', 'r', 'a'])
      = .error (.TrailingInput ['e', 'x', 't', 'r', 'a']) :=
  parse_requires_full_input.1
    (String.mk [' ', ' ', '{', ' ', '}', ' ', 'e', 'x', 't', 'r', 'a'])
    ['e', 'x', 't', 'r', 'a'] (.Object []) rfl (by decide)

/-- Claim C2 counterexample: the stored `Str` payload is not unescaped. On
the source text `"a\nb"` (quote, a, backslash, n, b, quote) the parser
stores the four characters `a`, `\`, `n`, `b` verbatim, which differ from
the three-character unescaped text with a real newline that the claim
requires. -/
theorem str_payload_not_unescaped :
    json_value 1 ['"', 'a', '\\', 'n', 'b', '"'] = .ok [] (.Str "a\\nb")
    ∧ ("a\\nb" : String) ≠ "a\nb" :=
  ⟨rfl, by decide⟩

/-- Claim C2 (amended): the owned `String` payload stored in `JsonValue::Str`
is the raw, still-escaped body text, copied verbatim from the source: when
the value dispatcher returns `Str s` with remainder `rest`, the input after
its leading whitespace is exactly a quote, the characters of `s` unchanged
(escape sequences included, undecoded), the closing quote, and `rest`. -/
theorem str_payload_is_raw_slice :
    ∀ (n : Nat) (i rest : Input) (s : String),
      json_value (n + 1) i = .ok rest (.Str s) →
      i.dropWhile wsChar = '"' :: (s.toList ++ '"' :: rest) := by
  intro n i rest s h
  rw [json_value, preceded_sp] at h
  rcases alt2_ok _ _ _ _ _ h with h1 | ⟨-, h2⟩
  · obtain ⟨a, -, hv⟩ := pmap_ok _ _ _ _ _ h1
    cases hv
  · rcases alt2_ok _ _ _ _ _ h2 with h1 | ⟨-, h2b⟩
    · obtain ⟨a, -, hv⟩ := pmap_ok _ _ _ _ _ h1
      cases hv
    · rcases alt2_ok _ _ _ _ _ h2b with h1 | ⟨-, h2c⟩
      · obtain ⟨a, hstr, hv⟩ := pmap_ok _ _ _ _ _ h1
        cases hv
        exact string_ok _ _ _ hstr
      · rcases alt2_ok _ _ _ _ _ h2c with h1 | ⟨-, h2d⟩
        · obtain ⟨a, -, hv⟩ := pmap_ok _ _ _ _ _ h1
          cases hv
        · rcases alt2_ok _ _ _ _ _ h2d with h1 | ⟨-, h2e⟩
          · obtain ⟨a, -, hv⟩ := pmap_ok _ _ _ _ _ h1
            cases hv
          · obtain ⟨a, -, hv⟩ := pmap_ok _ _ _ _ _ h2e
            cases hv

theorem str_payload_is_raw_slice_witness :
    (['"', 'a', '\\', 'n', 'b', '"'] : Input).dropWhile wsChar
      = '"' :: (("a\\nb" : String).toList ++ '"' :: []) :=
  str_payload_is_raw_slice 0 ['"', 'a', '\\', 'n', 'b', '"'] [] "a\\nb" rfl

/-- Claim C3 counterexample: the string-body scanner does not consume up to
the first unescaped closing quote and does not accept arbitrary ordinary
characters. On the body `a b"` (whose first unescaped quote follows `a b`)
it stops at the space after consuming only `a`; consequently the full
string parser fails (fatally) on `"a b"` instead of succeeding. -/
theorem parse_str_stops_at_space :
    parse_str ['a', ' ', 'b', '"'] = .ok [' ', 'b', '"'] ['a']
    ∧ (['a'] : List Char) ≠ ['a', ' ', 'b']
    ∧ string ['"', 'a', ' ', 'b', '"'] = .cut ["string"] :=
  ⟨rfl, by decide, rfl⟩

/-- Claim C3 (amended): the string-body scanner consumes only alphanumeric
characters and the two-character escape sequences `\"`, `\\`, `\n`: every
character of a successfully scanned body is alphanumeric, a backslash, or
one of the escapable characters `"`/`n`, and the scan stops either at the
end of input or at a character that is neither alphanumeric nor a backslash
(so an ordinary non-alphanumeric character such as a space or punctuation
is never accepted unescaped). -/
theorem parse_str_body_chars :
    ∀ (i rest body : Input), parse_str i = .ok rest body →
      (∀ c ∈ body, c.isAlphanum ∨ c = '\\' ∨ c = '"' ∨ c = 'n') ∧
      (rest = [] ∨ ∃ c t, rest = c :: t ∧ ¬c.isAlphanum ∧ c ≠ '\\') := by
  intro i rest body h
  obtain ⟨nn, hesc, hbody, hrest⟩ := parse_str_ok _ _ _ h
  subst hbody
  subst hrest
  exact escCount_spec nn true i hesc

theorem parse_str_body_chars_witness :
    (∀ c ∈ (['a', '\\', 'n'] : Input), c.isAlphanum ∨ c = '\\' ∨ c = '"' ∨ c = 'n')
    ∧ ((['"', 'x'] : Input) = [] ∨
       ∃ c t, (['"', 'x'] : Input) = c :: t ∧ ¬c.isAlphanum ∧ c ≠ '\\') :=
  parse_str_body_chars ['a', '\\', 'n', '"', 'x'] ['"', 'x'] ['a', '\\', 'n'] rfl

/-- Claim C4: the number alternative never accepts a leading `+` (an input
starting with `+` is rejected by the number scanner, and the whole value
dispatcher backtracks on it), and never accepts leading zeros beyond a
single `0`: after a `0` the match stops before any further digit, so
`"007"` matches only as the number `0` with `"07"` left over, and `"+1"`
does not match as a number at all. -/
theorem f64_no_plus_no_leading_zeros :
    (∀ i : Input, f64 ('+' :: i) = .backtrack [])
    ∧ (∀ (n : Nat) (i : Input), json_value (n + 1) ('+' :: i) = .backtrack [])
    ∧ (∀ (d : Char) (r : Input), d.isDigit → f64 ('0' :: d :: r) = .ok (d :: r) 0)
    ∧ (∀ (d : Char) (r : Input), d.isDigit → f64 ('-' :: '0' :: d :: r) = .ok (d :: r) 0) := by
  refine ⟨fun i => rfl, fun n i => ?_, ?_, ?_⟩
  · rw [json_value]
    rfl
  · intro d r hd
    have hdot : d ≠ '.' := by intro hh; subst hh; exact absurd hd (by decide)
    have he : ¬(d = 'e' ∨ d = 'E') := by
      rintro (hh | hh) <;> (subst hh; exact absurd hd (by decide))
    have hfrac : fracScan (d :: r) = none := by simp only [fracScan]; rw [if_neg hdot]
    have hexp : expScan (d :: r) = none := by simp only [expScan]; rw [if_neg he]
    show numTail false ['0'] (d :: r) = .ok (d :: r) 0
    simp only [numTail, hfrac, hexp]
    norm_num [mkNum, digitsToNat]
    decide
  · intro d r hd
    have hdot : d ≠ '.' := by intro hh; subst hh; exact absurd hd (by decide)
    have he : ¬(d = 'e' ∨ d = 'E') := by
      rintro (hh | hh) <;> (subst hh; exact absurd hd (by decide))
    have hfrac : fracScan (d :: r) = none := by simp only [fracScan]; rw [if_neg hdot]
    have hexp : expScan (d :: r) = none := by simp only [expScan]; rw [if_neg he]
    show numTail true ['0'] (d :: r) = .ok (d :: r) 0
    simp only [numTail, hfrac, hexp]
    norm_num [mkNum, digitsToNat]
    decide

theorem f64_no_plus_no_leading_zeros_witness :
    f64 ('+' :: ['1']) = .backtrack [] ∧ f64 ['0', '0', '7'] = .ok ['0', '7'] 0 :=
  ⟨f64_no_plus_no_leading_zeros.1 ['1'],
   f64_no_plus_no_leading_zeros.2.2.1 '0' ['7'] (by decide)⟩

/-- Claim C5: the value dispatcher skips leading whitespace and then tries
the alternatives in exactly the order object, array, string, number,
boolean, null: the first success wins with the corresponding constructor; a
committed (cut) failure of an alternative propagates immediately without
trying later alternatives; and when every alternative backtracks the
dispatcher itself backtracks. -/
theorem json_value_alternative_order :
    ∀ (n : Nat) (i : Input),
      (∀ r v, hash (json_value n) (i.dropWhile wsChar) = .ok r v →
        json_value (n + 1) i = .ok r (.Object v)) ∧
      (∀ e, hash (json_value n) (i.dropWhile wsChar) = .cut e →
        json_value (n + 1) i = .cut e) ∧
      (∀ e r v, hash (json_value n) (i.dropWhile wsChar) = .backtrack e →
        array (json_value n) (i.dropWhile wsChar) = .ok r v →
        json_value (n + 1) i = .ok r (.Array v)) ∧
      (∀ e e2, hash (json_value n) (i.dropWhile wsChar) = .backtrack e →
        array (json_value n) (i.dropWhile wsChar) = .cut e2 →
        json_value (n + 1) i = .cut e2) ∧
      (∀ e e2 r s, hash (json_value n) (i.dropWhile wsChar) = .backtrack e →
        array (json_value n) (i.dropWhile wsChar) = .backtrack e2 →
        string (i.dropWhile wsChar) = .ok r s →
        json_value (n + 1) i = .ok r (.Str (String.mk s))) ∧
      (∀ e e2 e3, hash (json_value n) (i.dropWhile wsChar) = .backtrack e →
        array (json_value n) (i.dropWhile wsChar) = .backtrack e2 →
        string (i.dropWhile wsChar) = .cut e3 →
        json_value (n + 1) i = .cut e3) ∧
      (∀ e e2 e3 r q, hash (json_value n) (i.dropWhile wsChar) = .backtrack e →
        array (json_value n) (i.dropWhile wsChar) = .backtrack e2 →
        string (i.dropWhile wsChar) = .backtrack e3 →
        f64 (i.dropWhile wsChar) = .ok r q →
        json_value (n + 1) i = .ok r (.Num q)) ∧
      (∀ e e2 e3 e4 r b, hash (json_value n) (i.dropWhile wsChar) = .backtrack e →
        array (json_value n) (i.dropWhile wsChar) = .backtrack e2 →
        string (i.dropWhile wsChar) = .backtrack e3 →
        f64 (i.dropWhile wsChar) = .backtrack e4 →
        boolean (i.dropWhile wsChar) = .ok r b →
        json_value (n + 1) i = .ok r (.Boolean b)) ∧
      (∀ e e2 e3 e4 e5 r u, hash (json_value n) (i.dropWhile wsChar) = .backtrack e →
        array (json_value n) (i.dropWhile wsChar) = .backtrack e2 →
        string (i.dropWhile wsChar) = .backtrack e3 →
        f64 (i.dropWhile wsChar) = .backtrack e4 →
        boolean (i.dropWhile wsChar) = .backtrack e5 →
        null (i.dropWhile wsChar) = .ok r u →
        json_value (n + 1) i = .ok r .Null) ∧
      (∀ e e2 e3 e4 e5 e6, hash (json_value n) (i.dropWhile wsChar) = .backtrack e →
        array (json_value n) (i.dropWhile wsChar) = .backtrack e2 →
        string (i.dropWhile wsChar) = .backtrack e3 →
        f64 (i.dropWhile wsChar) = .backtrack e4 →
        boolean (i.dropWhile wsChar) = .backtrack e5 →
        null (i.dropWhile wsChar) = .backtrack e6 →
        json_value (n + 1) i = .backtrack e6) := by
  intro n i
  refine ⟨?_, ?_, ?_, ?_, ?_, ?_, ?_, ?_, ?_, ?_⟩
  · intro r v h1
    rw [json_value, preceded_sp]
    simp only [alt2, pmap, h1]
  · intro e h1
    rw [json_value, preceded_sp]
    simp only [alt2, pmap, h1]
  · intro e r v h1 h2
    rw [json_value, preceded_sp]
    simp only [alt2, pmap, h1, h2]
  · intro e e2 h1 h2
    rw [json_value, preceded_sp]
    simp only [alt2, pmap, h1, h2]
  · intro e e2 r s h1 h2 h3
    rw [json_value, preceded_sp]
    simp only [alt2, pmap, h1, h2, h3]
  · intro e e2 e3 h1 h2 h3
    rw [json_value, preceded_sp]
    simp only [alt2, pmap, h1, h2, h3]
  · intro e e2 e3 r q h1 h2 h3 h4
    rw [json_value, preceded_sp]
    simp only [alt2, pmap, h1, h2, h3, h4]
  · intro e e2 e3 e4 r b h1 h2 h3 h4 h5
    rw [json_value, preceded_sp]
    simp only [alt2, pmap, h1, h2, h3, h4, h5]
  · intro e e2 e3 e4 e5 r u h1 h2 h3 h4 h5 h6
    rw [json_value, preceded_sp]
    simp only [alt2, pmap, h1, h2, h3, h4, h5, h6]
  · intro e e2 e3 e4 e5 e6 h1 h2 h3 h4 h5 h6
    rw [json_value, preceded_sp]
    simp only [alt2, pmap, h1, h2, h3, h4, h5, h6]

theorem json_value_alternative_order_witness :
    json_value 1 ("true".toList) = .ok [] (.Boolean true) :=
  (json_value_alternative_order 0 ("true".toList)).2.2.2.2.2.2.2.1
    ["map"] ["array"] ["string"] [] [] true rfl rfl rfl rfl rfl

/-- Claim C6: in object parsing the colon after a key is mandatory and its
absence is a committed (fatal) error: whenever the key string has been
parsed and the next non-whitespace character is not `:`, `key_value` fails
with a cut error; and concretely `parse "{\"a\":}"` (key and colon but no
value) fails fatally with context labels including `"map"`, not with a
recoverable backtrack. -/
theorem key_value_colon_fatal :
    (∀ (vp : Parser JsonValue) (i r : Input) (k : List Char),
       preceded sp string i = .ok r k →
       (r.dropWhile wsChar).head? ≠ some ':' →
       key_value vp i = .cut [])
    ∧ parse (String.mk ['{', '"', 'a', '"', ':', '}']) = .error (.Failed true ["map"]) := by
  refine ⟨?_, rfl⟩
  intro vp i r k hkey hcol
  have hp : pchar ':' (r.dropWhile wsChar) = .backtrack [] := by
    cases hd : r.dropWhile wsChar with
    | nil => rfl
    | cons c t =>
      have hne : c ≠ ':' := by
        intro hh
        subst hh
        exact hcol (by rw [hd]; rfl)
      simp [pchar, hne]
  have hc : cut (preceded sp (pchar ':')) r = .cut ([] : List String) := by
    unfold cut
    rw [preceded_sp, hp]
  simp only [key_value, separated_pair, hkey, hc]

theorem key_value_colon_fatal_witness :
    key_value (json_value 0) ['"', 'a', '"', 'x'] = .cut [] :=
  key_value_colon_fatal.1 (json_value 0) ['"', 'a', '"', 'x'] ['x'] ['a'] rfl (by decide)

/-- Claim C7: a trailing comma before the closing bracket of an array is a
committed (fatal) error carrying the `"array"` context label: whenever the
element list has been parsed and the next non-whitespace character of the
remainder is a comma (as happens when a comma is not followed by a further
element), the array parser fails with `cut ["array"]`; and concretely
`parse "[1,2,]"` fails fatally inside the `"array"` context. -/
theorem array_trailing_comma_fatal :
    (∀ (vp : Parser JsonValue) (j r : Input) (vs : List JsonValue),
       separated_list0 (preceded sp (pchar ',')) vp j = .ok r vs →
       (r.dropWhile wsChar).head? = some ',' →
       array vp ('[' :: j) = .cut ["array"])
    ∧ parse "[1,2,]" = .error (.Failed true ["array"]) := by
  refine ⟨?_, rfl⟩
  intro vp j r vs hlist hcomma
  have hp : pchar ']' (r.dropWhile wsChar) = .backtrack [] := by
    cases hd : r.dropWhile wsChar with
    | nil => rw [hd] at hcomma; cases hcomma
    | cons c t =>
      rw [hd] at hcomma
      have hc : c = ',' := by simpa using hcomma
      subst hc
      simp [pchar]
  have hterm : terminated (separated_list0 (preceded sp (pchar ',')) vp)
      (preceded sp (pchar ']')) j = .backtrack [] := by
    simp only [terminated, hlist, preceded_sp, hp]
  have h1 : pchar '[' ('[' :: j) = .ok j '[' := rfl
  simp only [array, context, preceded, cut, h1, hterm, List.nil_append]

theorem array_trailing_comma_fatal_witness :
    array (json_value 1) ('[' :: ("1,]".toList)) = .cut ["array"] :=
  array_trailing_comma_fatal.1 (json_value 1) ("1,]".toList) (",]".toList) _ rfl rfl

/-- Claim C8: on duplicate object keys the last occurrence wins:
`parse "{\"k\":1,\"k\":2}"` yields an object whose mapping holds exactly one
entry for `"k"`, bound to the number `2`. -/
theorem hash_duplicate_key_last_wins :
    parse (String.mk ['{', '"', 'k', '"', ':', '1', ',', '"', 'k', '"', ':', '2', '}'])
      = .ok (.Object [("k", .Num 2)]) := by
  have h1 : parse (String.mk ['{', '"', 'k', '"', ':', '1', ',', '"', 'k', '"', ':', '2', '}'])
      = .ok (.Object [("k", .Num (mkNum false ['2'] [] false []))]) := rfl
  have h2 : mkNum false ['2'] [] false [] = (2 : ℚ) := by
    norm_num [mkNum, digitsToNat]
    decide
  rw [h1, h2]

/-- Claim C9: the root entry point accepts only a top-level object, array,
or the `null` literal: every successful `root` result is an `Object`, an
`Array`, or `Null`, and a bare top-level string, number, or boolean is
rejected (concretely on `"a"`, `1` and `true`). -/
theorem root_top_level_shape :
    (∀ (n : Nat) (i rest : Input) (v : JsonValue), root n i = .ok rest v →
       (∃ m, v = .Object m) ∨ (∃ xs, v = .Array xs) ∨ v = .Null)
    ∧ root 1 ("\"a\"".toList) = .backtrack []
    ∧ root 1 ("1".toList) = .backtrack []
    ∧ root 1 ("true".toList) = .backtrack [] := by
  refine ⟨?_, rfl, rfl, rfl⟩
  intro n i rest v h
  obtain ⟨r1, a, r2, cc, -, halt, -⟩ := delimited_ok _ _ _ _ _ _ h
  rcases alt2_ok _ _ _ _ _ halt with h1 | ⟨-, h2⟩
  · obtain ⟨m, -, hv⟩ := pmap_ok _ _ _ _ _ h1
    exact Or.inl ⟨m, hv⟩
  · rcases alt2_ok _ _ _ _ _ h2 with h1 | ⟨-, h2b⟩
    · obtain ⟨xs, -, hv⟩ := pmap_ok _ _ _ _ _ h1
      exact Or.inr (Or.inl ⟨xs, hv⟩)
    · obtain ⟨u, -, hv⟩ := pmap_ok _ _ _ _ _ h2b
      exact Or.inr (Or.inr hv)

theorem root_top_level_shape_witness :
    (∃ m, JsonValue.Null = JsonValue.Object m)
    ∨ (∃ xs, JsonValue.Null = JsonValue.Array xs)
    ∨ JsonValue.Null = JsonValue.Null :=
  root_top_level_shape.1 1 ("null".toList) [] .Null rfl

/-- Claim C10: every parser of the grammar consumes only a front portion of
its input: whenever the whitespace scanner, the string-body scanner, the
string parser, the array parser, the object parser, the value dispatcher,
or the root parser succeeds, the remaining input it returns is a suffix of
the input it was given — input text is never altered, reordered, or
fabricated. -/
theorem parsers_return_suffix :
    ∀ (n : Nat) (i rest : Input),
      (∀ v, sp i = .ok rest v → rest <:+ i) ∧
      (∀ v, parse_str i = .ok rest v → rest <:+ i) ∧
      (∀ v, string i = .ok rest v → rest <:+ i) ∧
      (∀ v, array (json_value n) i = .ok rest v → rest <:+ i) ∧
      (∀ v, hash (json_value n) i = .ok rest v → rest <:+ i) ∧
      (∀ v, json_value n i = .ok rest v → rest <:+ i) ∧
      (∀ v, root n i = .ok rest v → rest <:+ i) :=
  fun n i rest =>
    ⟨fun v => suffixing_sp i rest v,
     fun v => suffixing_parse_str i rest v,
     fun v => suffixing_string i rest v,
     fun v => suffixing_array _ (suffixing_json_value n) i rest v,
     fun v => suffixing_hash _ (suffixing_json_value n) i rest v,
     fun v => suffixing_json_value n i rest v,
     fun v => suffixing_root n i rest v⟩

theorem parsers_return_suffix_witness : ([] : Input) <:+ ("null".toList) :=
  (parsers_return_suffix 1 ("null".toList) []).2.2.2.2.2.2 .Null rfl
